import Mathlib

/-!
# httpbrute: a shallow embedding of `httpbrute.go`

Go strings are modelled by Lean strings (sequences of characters).  The
lexicographic order on Lean strings compares code points, which for UTF-8
text is the byte-wise order Go uses.  Library calls of the program
(`strings.Split`, `strings.TrimRight`, `sort.Strings`, `fmt.Sprintf`,
`http.Get`, `(*http.Response).Location`) are modelled by what they return.
-/

namespace Httpbrute

/-! ## Strings -/

/-- Pieces of a character sequence between successive occurrences of `sep`;
there is always one piece more than there are separators. -/
def splitChars (sep : Char) : List Char → List (List Char)
  | [] => [[]]
  | c :: cs =>
    if c = sep then [] :: splitChars sep cs
    else
      match splitChars sep cs with
      | [] => [[c]]
      | p :: ps => (c :: p) :: ps

/-- Go `strings.Split(s, sep)` for a one-character separator. -/
def stringsSplit (s : String) (sep : Char) : List String :=
  (splitChars sep s.data).map String.mk

/-- The character-level join: pieces separated by `sep`. -/
def joinChars (sep : Char) : List (List Char) → List Char
  | [] => []
  | [p] => p
  | p :: q :: r => p ++ sep :: joinChars sep (q :: r)

/-- Go `strings.Join(elems, sep)`. -/
def stringsJoin : List String → String → String
  | [], _ => ""
  | [a], _ => a
  | a :: b :: rest, sep => a ++ sep ++ stringsJoin (b :: rest) sep

/-- Go `strings.TrimRight(s, cutset)` for a one-character cutset: the
trailing run of `c` is removed. -/
def stringsTrimRight (s : String) (c : Char) : String :=
  String.mk (s.data.rdropWhile (fun x => x == c))

/-- Go `sort.Strings`: the argument in increasing order. -/
def sortStrings (ss : List String) : List String :=
  ss.insertionSort (fun a b => a.data ≤ b.data)

/-! ## The suffix list -/

/-- The statement `m[s] = struct{}{}` on a `map[string]struct{}`, the map
being kept as the list of its keys. -/
def mapSet (m : List String) (s : String) : List String :=
  if s ∈ m then m else m ++ [s]

/-- The function `parseSuffixList` of `httpbrute.go`.  The keys of the map
are visited in the order they were first stored; Go visits them in an
unspecified order, which the sort that follows makes irrelevant
(`parseSuffixList_any_order`). -/
def parseSuffixList (l : String) : List String :=
  /- Split list into suffixes -/
  let ps := stringsSplit l ','
  /- Uniquify -/
  let m := ps.foldl mapSet []
  let ss := m.foldl (fun ss s => ss ++ [s]) []
  /- Sort the list -/
  sortStrings ss

/-! ## Candidate generation in `main` -/

/-- The statement `*target = strings.TrimRight(*target, "/") + "/"` of `main`. -/
def normalizeTarget (target : String) : String :=
  stringsTrimRight target '/' ++ "/"

/-- The inner loop of `main`, `for _, s := range suffixes { ch <- t + s }`;
`ch` is the sequence of values sent on the channel so far. -/
def sendSuffixes (t : String) (suffixes : List String) (ch : List String) : List String :=
  suffixes.foldl (fun ch s => ch ++ [t ++ s]) ch

/-- The scanning loop of `main` over the lines the scanner yields: each line
is appended to the target and sent with every suffix. -/
def sendTargets (target : String) (lines suffixes : List String) (ch : List String) :
    List String :=
  lines.foldl (fun ch line =>
    let t := target ++ line
    sendSuffixes t suffixes ch) ch

/-! ## Probing one URL -/

/-- What `res.Location()` returns: `(nil, http.ErrNoLocation)` when there is
no Location header, `(lu, nil)` with `u = lu.String()` when the header
resolves, `(nil, err)` with `e = err.Error()` when resolving it fails. -/
inductive LocationResult where
  | noLocation
  | url (u : String)
  | error (e : String)
  deriving DecidableEq, Repr

/-- The parts of an `*http.Response` that `attackOne` reads: `res.Status`,
`res.StatusCode`, `res.Request.URL.String()` and the result of
`res.Location()`. -/
structure Response where
  Status : String
  StatusCode : Int
  RequestURL : String
  Location : LocationResult
  deriving DecidableEq, Repr

/-- What a worker does that can be observed, in the order it happens. -/
inductive Event where
  /-- A call `http.Get(url)`. -/
  | get (url : String)
  /-- A retry notice written with `log.Printf("%s", m)`. -/
  | retryNotice (m : String)
  /-- A call `time.Sleep(d)`. -/
  | sleep (d : Int)
  /-- A report line written with `olog.Printf`. -/
  | report (line : String)
  /-- The deferred `res.Body.Close()`. -/
  | bodyClose
  deriving DecidableEq, Repr

/-- What the program takes from outside: how `fmt` renders a
`time.Duration` (its `String` method), and what the `n`-th call of
`http.Get` made for one candidate URL returns, an error text or a response. -/
structure World where
  durationString : Int → String
  httpGet : Nat → String → Except String Response

/-- The constant `http.StatusNotFound`. -/
def StatusNotFound : Int := 404

/-- The function `retryLog` of `httpbrute.go`; the memo `*s` is passed in and
the new memo returned with the events.  The deferred `time.Sleep(toWait)`
runs last on every path. -/
def retryLog (m : String) (s : String) (toWait : Int) (logRetry : Bool) :
    String × List Event :=
  let deferred := [Event.sleep toWait]
  /- Only log the message if we're logging such things -/
  if !logRetry then (s, deferred)
  /- Already logged it, nothing to do -/
  else if m == s then (s, deferred)
  /- Log it and save it -/
  else (m, [Event.retryNotice m] ++ deferred)

/-- The retry message, `fmt.Sprintf("[Retry] %s Retrying every %s (%s)", t,
toWait, err)`. -/
def retryMessage (w : World) (t : String) (toWait : Int) (err : String) : String :=
  "[Retry] " ++ t ++ " Retrying every " ++ w.durationString toWait ++ " (" ++ err ++ ")"

/-- How `fmt` renders with `%s` the `*url.URL` that `res.Location()` returned:
the URL's text, or `<nil>` for the nil pointer returned beside an error. -/
def LocationResult.sprintURL : LocationResult → String
  | .url u => u
  | .noLocation => "<nil>"
  | .error _ => "<nil>"

/-- The Location annotation `l` computed by `attackOne`. -/
def locationPart (loc : LocationResult) : String :=
  let l :=
    match loc with
    /- nil != err && !errors.Is(err, http.ErrNoLocation) -/
    | .error e => "Error: " ++ e
    /- !errors.Is(err, http.ErrNoLocation) -/
    | .url u => u
    | .noLocation => ""
  if l ≠ "" then " (Location: " ++ loc.sprintURL ++ ")" else l

/-- The redirect annotation `ru` computed by `attackOne`. -/
def redirectPart (t : String) (res : Response) : String :=
  let ru := res.RequestURL
  if ru = t then "" else " -> " ++ ru

/-- The report line, `"[%s] %s%s%s"` of `res.Status`, `t`, `ru` and `l`. -/
def reportLine (t : String) (res : Response) : String :=
  "[" ++ res.Status ++ "] " ++ t ++ redirectPart t res ++ locationPart res.Location

/-- The loop of `attackOne`: `n` calls of `http.Get` were made, `retryMsg` is
the memo, `trace` the events so far.  Each round of the loop takes one unit
of fuel; `none` means the fuel ran out before the loop ended. -/
def attackOneLoop (w : World) (t : String) (toWait : Int) (logRetry : Bool) :
    Nat → Nat → String → List Event → Option (List Event)
  | 0, _, _, _ => none
  | fuel + 1, n, retryMsg, trace =>
    /- Try to get the URL -/
    match w.httpGet n t with
    | .error err =>
      /- maybe print a message and try again in a bit. -/
      let r := retryLog (retryMessage w t toWait err) retryMsg toWait logRetry
      attackOneLoop w t toWait logRetry fuel (n + 1) r.1 (trace ++ [Event.get t] ++ r.2)
    | .ok res =>
      /- Don't care about 404's -/
      if res.StatusCode = StatusNotFound then
        some (trace ++ [Event.get t, Event.bodyClose])
      else
        some (trace ++ [Event.get t, Event.report (reportLine t res), Event.bodyClose])

/-- The statuses on which the default client behind `http.Get` follows the
Location header instead of handing the response back: 301, 302, 303, 307 and
308. -/
def redirectStatus (code : Int) : Bool :=
  code == 301 || code == 302 || code == 303 || code == 307 || code == 308

/-- A condition every response handed back by `http.Get` meets: with a
redirect status it has no Location header.  (With one, the client follows
it, or fails when it does not parse or after ten redirects.) -/
def getCanReturn (res : Response) : Bool :=
  !redirectStatus res.StatusCode || decide (res.Location = LocationResult.noLocation)

/-- The function `attackOne` of `httpbrute.go`: the events of one call. -/
def attackOne (w : World) (t : String) (toWait : Int) (logRetry : Bool) (fuel : Nat) :
    Option (List Event) :=
  attackOneLoop w t toWait logRetry fuel 0 "" []

/-- Largest value of a Go `int` (64 bits). -/
def maxInt : Int := 2 ^ 63 - 1

/-- Smallest value of a Go `int` (64 bits). -/
def minInt : Int := -(2 ^ 63)

/-- A Go `int` result: the value reduced to 64 bits, two's complement. -/
def wrapInt (x : Int) : Int :=
  (x + 2 ^ 63) % 2 ^ 64 - 2 ^ 63

/-- What a worker changes: the counter `nTry` and the output written. -/
structure State where
  nTry : Int
  out : List Event
  deriving DecidableEq, Repr

/-- One round of the loop of `attack`: `attackOne(t, toWait, logRetry)`, then
`nTry++` under the lock. -/
def attackRound (w : World) (toWait : Int) (logRetry : Bool) (fuel : Nat) (st : State)
    (t : String) : Option State :=
  match attackOne w t toWait logRetry fuel with
  | none => none
  | some evs => some { nTry := wrapInt (st.nTry + 1), out := st.out ++ evs }

/-- The function `attack` of `httpbrute.go` for a worker that receives the
URLs `ch` in turn. -/
def attack (w : World) (toWait : Int) (logRetry : Bool) (fuel : Nat) :
    List String → State → Option State
  | [], st => some st
  | t :: ch, st =>
    match attackRound w toWait logRetry fuel st t with
    | none => none
    | some st1 => attack w toWait logRetry fuel ch st1

/-! ## Reading a trace -/

/-- The URLs fetched, in order. -/
def gets : List Event → List String
  | [] => []
  | Event.get u :: evs => u :: gets evs
  | _ :: evs => gets evs

/-- The retry notices printed, in order. -/
def retryNotices : List Event → List String
  | [] => []
  | Event.retryNotice m :: evs => m :: retryNotices evs
  | _ :: evs => retryNotices evs

/-- The waits made, in order. -/
def sleeps : List Event → List Int
  | [] => []
  | Event.sleep d :: evs => d :: sleeps evs
  | _ :: evs => sleeps evs

/-- The report lines printed, in order. -/
def reportLines : List Event → List String
  | [] => []
  | Event.report l :: evs => l :: reportLines evs
  | _ :: evs => reportLines evs

/-- The events of `j` retries that print nothing. -/
def quietRetries (t : String) (toWait : Int) (j : Nat) : List Event :=
  (List.replicate j [Event.get t, Event.sleep toWait]).flatten

/-! ## Concrete inputs -/

/-- Ten seconds as a `time.Duration`, in nanoseconds. -/
def tenSeconds : Int := 10000000000

/-- How `fmt` renders ten seconds; other durations are not used below. -/
def durationText (d : Int) : String :=
  if d = tenSeconds then "10s" else "?"

/-- A `200 OK` answer to `http://x/a`. -/
def responseOK : Response :=
  { Status := "200 OK", StatusCode := 200, RequestURL := "http://x/a",
    Location := .noLocation }

/-- A `404 Not Found` answer to `http://x/a`. -/
def responseNotFound : Response :=
  { Status := "404 Not Found", StatusCode := 404, RequestURL := "http://x/a",
    Location := .noLocation }

/-- A `201 Created` answer with `Location: http://x/secret`, given to the
request for `http://x/b` that the client made after `http://x/a` redirected
there.  The status is not a redirect, so the client hands the response back
with its Location header. -/
def responseCreated : Response :=
  { Status := "201 Created", StatusCode := 201, RequestURL := "http://x/b",
    Location := .url "http://x/secret" }

/-- A `201 Created` answer whose header `Location: %zz` does not parse. -/
def responseBadLocation : Response :=
  { Status := "201 Created", StatusCode := 201, RequestURL := "http://x/a",
    Location := .error "parse \"%zz\": invalid URL escape \"%zz\"" }

/-- Three timeouts, then `200 OK`. -/
def worldThreeFailures : World :=
  { durationString := durationText
    httpGet := fun n _ => if n < 3 then .error "timeout" else .ok responseOK }

/-- Every fetch is answered `404 Not Found`. -/
def worldNotFound : World :=
  { durationString := durationText
    httpGet := fun _ _ => .ok responseNotFound }

/-- One timeout, then `201 Created` with a Location, reached by a redirect. -/
def worldCreated : World :=
  { durationString := durationText
    httpGet := fun n _ => if n < 1 then .error "timeout" else .ok responseCreated }

/-- Every fetch is answered `201 Created` with a Location that does not parse. -/
def worldBadLocation : World :=
  { durationString := durationText
    httpGet := fun _ _ => .ok responseBadLocation }

/-! ## Facts about splitting and joining -/

theorem splitChars_ne_nil (sep : Char) (cs : List Char) : splitChars sep cs ≠ [] := by
  induction cs with
  | nil => simp [splitChars]
  | cons c cs ih =>
    unfold splitChars
    split_ifs
    · simp
    · split <;> simp

theorem joinChars_cons_cons (sep c : Char) (p : List Char) (ps : List (List Char)) :
    joinChars sep ((c :: p) :: ps) = c :: joinChars sep (p :: ps) := by
  cases ps <;> simp [joinChars]

theorem joinChars_splitChars (sep : Char) (cs : List Char) :
    joinChars sep (splitChars sep cs) = cs := by
  induction cs with
  | nil => simp [splitChars, joinChars]
  | cons c cs ih =>
    unfold splitChars
    split_ifs with h
    · cases hs : splitChars sep cs with
      | nil => exact absurd hs (splitChars_ne_nil sep cs)
      | cons q r =>
        rw [hs] at ih
        simp [joinChars, ih, h]
    · cases hs : splitChars sep cs with
      | nil => exact absurd hs (splitChars_ne_nil sep cs)
      | cons q r =>
        rw [hs] at ih
        simp only [joinChars_cons_cons, ih]

theorem splitChars_sepfree (sep : Char) (cs : List Char) :
    ∀ p ∈ splitChars sep cs, sep ∉ p := by
  induction cs with
  | nil => simp [splitChars]
  | cons c cs ih =>
    unfold splitChars
    split_ifs with h
    · intro p hp
      rcases List.mem_cons.1 hp with rfl | hp
      · simp
      · exact ih p hp
    · cases hs : splitChars sep cs with
      | nil => exact absurd hs (splitChars_ne_nil sep cs)
      | cons q r =>
        rw [hs] at ih
        intro p hp
        rcases List.mem_cons.1 hp with rfl | hp
        · have hq := ih q (List.mem_cons_self _ _)
          intro hmem
          rcases List.mem_cons.1 hmem with e | e
          · exact h e.symm
          · exact hq e
        · exact ih p (List.mem_cons_of_mem _ hp)

theorem splitChars_of_sepfree (sep : Char) (p : List Char) (hp : sep ∉ p) :
    splitChars sep p = [p] := by
  induction p with
  | nil => simp [splitChars]
  | cons c p ih =>
    have hc : c ≠ sep := fun e => hp (by simp [e])
    have hp2 : sep ∉ p := fun e => hp (List.mem_cons_of_mem _ e)
    unfold splitChars
    rw [if_neg hc, ih hp2]

theorem splitChars_append_sep (sep : Char) (p rest : List Char) (hp : sep ∉ p) :
    splitChars sep (p ++ sep :: rest) = p :: splitChars sep rest := by
  induction p with
  | nil => simp [splitChars]
  | cons c p ih =>
    have hc : c ≠ sep := fun e => hp (by simp [e])
    have hp2 : sep ∉ p := fun e => hp (List.mem_cons_of_mem _ e)
    rw [List.cons_append, splitChars, if_neg hc, ih hp2]

theorem splitChars_joinChars (sep : Char) (ps : List (List Char)) (hne : ps ≠ [])
    (hfree : ∀ p ∈ ps, sep ∉ p) : splitChars sep (joinChars sep ps) = ps := by
  induction ps with
  | nil => exact absurd rfl hne
  | cons p ps ih =>
    cases ps with
    | nil => simpa [joinChars] using splitChars_of_sepfree sep p (hfree p (by simp))
    | cons q r =>
      have h1 : sep ∉ p := hfree p (by simp)
      have h2 := ih (by simp) (fun x hx => hfree x (List.mem_cons_of_mem _ hx))
      simp only [joinChars] at h2 ⊢
      rw [splitChars_append_sep sep p _ h1, h2]

theorem stringsJoin_data (c : Char) (ps : List String) :
    (stringsJoin ps (String.singleton c)).data = joinChars c (ps.map String.data) := by
  induction ps with
  | nil => rfl
  | cons a ps ih =>
    cases ps with
    | nil => rfl
    | cons b r =>
      simp only [stringsJoin, String.data_append, List.map_cons, joinChars] at ih ⊢
      rw [ih]
      simp [String.singleton]

theorem stringsSplit_stringsJoin (c : Char) (ps : List String) (hne : ps ≠ [])
    (hfree : ∀ p ∈ ps, c ∉ p.data) :
    stringsSplit (stringsJoin ps (String.singleton c)) c = ps := by
  unfold stringsSplit
  rw [stringsJoin_data, splitChars_joinChars c _ (by simpa using hne)]
  · rw [List.map_map]
    exact List.map_id ps
  · intro q hq
    obtain ⟨p, hp, rfl⟩ := List.mem_map.1 hq
    exact hfree p hp

theorem stringsJoin_stringsSplit (c : Char) (l : String) :
    stringsJoin (stringsSplit l c) (String.singleton c) = l := by
  apply String.ext
  rw [stringsJoin_data]
  unfold stringsSplit
  rw [List.map_map]
  have : (String.data ∘ String.mk) = id := rfl
  rw [this, List.map_id, joinChars_splitChars]

theorem stringsSplit_sepfree (c : Char) (l : String) :
    ∀ p ∈ stringsSplit l c, c ∉ p.data := by
  intro p hp
  obtain ⟨q, hq, rfl⟩ := List.mem_map.1 hp
  exact splitChars_sepfree c l.data q hq

theorem stringsSplit_ne_nil (c : Char) (l : String) : stringsSplit l c ≠ [] := by
  unfold stringsSplit
  simpa using splitChars_ne_nil c l.data

/-! ## Facts about the key set and sorting -/

theorem foldl_mapSet_mem (ps acc : List String) (s : String) :
    s ∈ ps.foldl mapSet acc ↔ s ∈ acc ∨ s ∈ ps := by
  induction ps generalizing acc with
  | nil => simp
  | cons p ps ih =>
    rw [List.foldl_cons, ih]
    unfold mapSet
    split_ifs with h
    · constructor
      · rintro (h1 | h1)
        · exact Or.inl h1
        · exact Or.inr (List.mem_cons_of_mem _ h1)
      · rintro (h1 | h1)
        · exact Or.inl h1
        · rcases List.mem_cons.1 h1 with rfl | h2
          · exact Or.inl h
          · exact Or.inr h2
    · simp only [List.mem_append, List.mem_singleton, List.mem_cons]
      tauto

theorem foldl_mapSet_nodup (ps acc : List String) (h : acc.Nodup) :
    (ps.foldl mapSet acc).Nodup := by
  induction ps generalizing acc with
  | nil => simpa using h
  | cons p ps ih =>
    rw [List.foldl_cons]
    apply ih
    unfold mapSet
    split_ifs with hp
    · exact h
    · exact List.Nodup.append h (List.nodup_singleton p) (by simpa using hp)

theorem foldl_mapSet_of_nodup (ps acc : List String) (h : (acc ++ ps).Nodup) :
    ps.foldl mapSet acc = acc ++ ps := by
  induction ps generalizing acc with
  | nil => simp
  | cons p ps ih =>
    have hp : p ∉ acc := by
      intro hmem
      have := List.nodup_append.1 h
      exact this.2.2 hmem (List.mem_cons_self _ _)
    have h2 : ((acc ++ [p]) ++ ps).Nodup := by simpa using h
    rw [List.foldl_cons]
    have : mapSet acc p = acc ++ [p] := by unfold mapSet; rw [if_neg hp]
    rw [this, ih _ h2]
    simp

theorem foldl_snoc (m acc : List String) :
    m.foldl (fun ss s => ss ++ [s]) acc = acc ++ m := by
  induction m generalizing acc with
  | nil => simp
  | cons a m ih => rw [List.foldl_cons, ih]; simp

instance leData_total : IsTotal String (fun a b => a.data ≤ b.data) :=
  ⟨fun a b => (le_total a b).imp String.le_iff_toList_le.1 String.le_iff_toList_le.1⟩

instance leData_trans : IsTrans String (fun a b => a.data ≤ b.data) :=
  ⟨fun _ _ _ h1 h2 => String.le_iff_toList_le.1
    (le_trans (String.le_iff_toList_le.2 h1) (String.le_iff_toList_le.2 h2))⟩

instance leData_antisymm : IsAntisymm String (fun a b => a.data ≤ b.data) :=
  ⟨fun _ _ h1 h2 => le_antisymm (String.le_iff_toList_le.2 h1) (String.le_iff_toList_le.2 h2)⟩

theorem sortStrings_perm (ss : List String) : (sortStrings ss).Perm ss :=
  List.perm_insertionSort _ ss

theorem sortStrings_sorted (ss : List String) :
    List.Sorted (fun a b => a.data ≤ b.data) (sortStrings ss) :=
  List.sorted_insertionSort _ ss

/-- Whatever order the keys of the map are visited in, sorting gives the
same list: a sorted arrangement of the keys is unique. -/
theorem sortStrings_unique (ss out : List String) (hperm : out.Perm ss)
    (hsorted : List.Sorted (fun a b => a.data ≤ b.data) out) : out = sortStrings ss :=
  List.eq_of_perm_of_sorted (hperm.trans (sortStrings_perm ss).symm) hsorted
    (sortStrings_sorted ss)

theorem sortStrings_lt (ss : List String) (h : ss.Nodup) :
    List.Sorted (fun a b : String => a < b) (sortStrings ss) := by
  have h1 : List.Sorted (fun a b : String => a ≤ b) (sortStrings ss) :=
    (sortStrings_sorted ss).imp (fun hab => String.le_iff_toList_le.2 hab)
  exact h1.lt_of_le ((sortStrings_perm ss).nodup_iff.2 h)

theorem parseSuffixList_eq (l : String) :
    parseSuffixList l = sortStrings ((stringsSplit l ',').foldl mapSet []) := by
  unfold parseSuffixList
  simp only [foldl_snoc, List.nil_append]

/-- The order in which the keys of the map are visited does not matter:
sorting any arrangement of them gives `parseSuffixList l`. -/
theorem parseSuffixList_any_order (l : String) (ss : List String)
    (h : ss.Perm ((stringsSplit l ',').foldl mapSet [])) :
    sortStrings ss = parseSuffixList l := by
  rw [parseSuffixList_eq]
  exact sortStrings_unique _ _ ((sortStrings_perm ss).trans h) (sortStrings_sorted ss)

theorem parseSuffixList_mem (l s : String) :
    s ∈ parseSuffixList l ↔ s ∈ stringsSplit l ',' := by
  rw [parseSuffixList_eq, (sortStrings_perm _).mem_iff, foldl_mapSet_mem]
  simp

theorem parseSuffixList_nodup (l : String) : (parseSuffixList l).Nodup := by
  rw [parseSuffixList_eq, (sortStrings_perm _).nodup_iff]
  exact foldl_mapSet_nodup _ _ List.nodup_nil

theorem parseSuffixList_sorted_lt (l : String) :
    List.Sorted (fun a b : String => a < b) (parseSuffixList l) := by
  rw [parseSuffixList_eq]
  exact sortStrings_lt _ (foldl_mapSet_nodup _ _ List.nodup_nil)

theorem parseSuffixList_congr (l1 l2 : String)
    (h : ∀ s, s ∈ stringsSplit l1 ',' ↔ s ∈ stringsSplit l2 ',') :
    parseSuffixList l1 = parseSuffixList l2 := by
  rw [parseSuffixList_eq l2]
  apply sortStrings_unique
  · apply (List.perm_ext_iff_of_nodup (parseSuffixList_nodup l1)
      (foldl_mapSet_nodup _ _ List.nodup_nil)).2
    intro s
    rw [parseSuffixList_mem, foldl_mapSet_mem, h]
    simp
  · rw [parseSuffixList_eq]
    exact sortStrings_sorted _

theorem parseSuffixList_join (l : String) :
    parseSuffixList (stringsJoin (parseSuffixList l) ",") = parseSuffixList l := by
  have hne : parseSuffixList l ≠ [] := by
    intro h
    have hs := stringsSplit_ne_nil ',' l
    cases hsp : stringsSplit l ',' with
    | nil => exact hs hsp
    | cons a r =>
      have := (parseSuffixList_mem l a).2 (by rw [hsp]; exact List.mem_cons_self _ _)
      rw [h] at this
      exact List.not_mem_nil _ this
  have hfree : ∀ p ∈ parseSuffixList l, ',' ∉ p.data := fun p hp =>
    stringsSplit_sepfree ',' l p ((parseSuffixList_mem l p).1 hp)
  have hsplit : stringsSplit (stringsJoin (parseSuffixList l) ",") ',' = parseSuffixList l :=
    stringsSplit_stringsJoin ',' _ hne hfree
  rw [parseSuffixList_eq (stringsJoin (parseSuffixList l) ","), hsplit,
    foldl_mapSet_of_nodup _ _ (by simpa using parseSuffixList_nodup l), List.nil_append]
  unfold sortStrings
  apply List.Sorted.insertionSort_eq
  rw [parseSuffixList_eq]
  exact sortStrings_sorted _

/-! ## Facts about traces -/

theorem gets_append (a b : List Event) : gets (a ++ b) = gets a ++ gets b := by
  induction a with
  | nil => rfl
  | cons e a ih => cases e <;> simp [gets, ih]

theorem retryNotices_append (a b : List Event) :
    retryNotices (a ++ b) = retryNotices a ++ retryNotices b := by
  induction a with
  | nil => rfl
  | cons e a ih => cases e <;> simp [retryNotices, ih]

theorem sleeps_append (a b : List Event) : sleeps (a ++ b) = sleeps a ++ sleeps b := by
  induction a with
  | nil => rfl
  | cons e a ih => cases e <;> simp [sleeps, ih]

theorem reportLines_append (a b : List Event) :
    reportLines (a ++ b) = reportLines a ++ reportLines b := by
  induction a with
  | nil => rfl
  | cons e a ih => cases e <;> simp [reportLines, ih]

theorem quietRetries_succ (t : String) (toWait : Int) (j : Nat) :
    quietRetries t toWait (j + 1) =
      [Event.get t, Event.sleep toWait] ++ quietRetries t toWait j := by
  simp [quietRetries, List.replicate_succ]

theorem gets_quietRetries (t : String) (toWait : Int) (j : Nat) :
    gets (quietRetries t toWait j) = List.replicate j t := by
  induction j with
  | zero => rfl
  | succ j ih => rw [quietRetries_succ, gets_append, ih]; simp [gets, List.replicate_succ]

theorem sleeps_quietRetries (t : String) (toWait : Int) (j : Nat) :
    sleeps (quietRetries t toWait j) = List.replicate j toWait := by
  induction j with
  | zero => rfl
  | succ j ih => rw [quietRetries_succ, sleeps_append, ih]; simp [sleeps, List.replicate_succ]

theorem retryNotices_quietRetries (t : String) (toWait : Int) (j : Nat) :
    retryNotices (quietRetries t toWait j) = [] := by
  induction j with
  | zero => rfl
  | succ j ih => rw [quietRetries_succ, retryNotices_append, ih]; simp [retryNotices]

theorem reportLines_quietRetries (t : String) (toWait : Int) (j : Nat) :
    reportLines (quietRetries t toWait j) = [] := by
  induction j with
  | zero => rfl
  | succ j ih => rw [quietRetries_succ, reportLines_append, ih]; simp [reportLines]

/-! ## Facts about the retry loop -/

theorem retryMessage_ne_empty (w : World) (t : String) (toWait : Int) (err : String) :
    retryMessage w t toWait err ≠ "" := by
  intro h
  have hl := congrArg String.length h
  simp only [retryMessage, String.length_append] at hl
  have h8 : ("[Retry] ").length = 8 := by decide
  have h0 : ("").length = 0 := by decide
  rw [h8, h0] at hl
  omega

theorem retryLog_events (m s : String) (toWait : Int) (logRetry : Bool) :
    retryLog m s toWait logRetry =
      if logRetry = true ∧ m ≠ s then (m, [Event.retryNotice m, Event.sleep toWait])
      else (s, [Event.sleep toWait]) := by
  unfold retryLog
  cases logRetry
  · simp
  · by_cases h : m = s
    · simp [h]
    · simp [h]

theorem wrapInt_succ (n : Int) (hlo : minInt ≤ n) (hhi : n < maxInt) :
    wrapInt (n + 1) = n + 1 := by
  unfold wrapInt
  unfold minInt at hlo
  unfold maxInt at hhi
  norm_num at hlo hhi ⊢
  omega

/-- Once the memo holds the message of the error, every further failure
with the same error costs one fetch and one wait and prints nothing. -/
theorem attackOneLoop_same_error (w : World) (t : String) (toWait : Int) (e : String)
    (j fuel n : Nat) (trace : List Event)
    (h : ∀ i, i < j → w.httpGet (n + i) t = .error e) :
    attackOneLoop w t toWait true (j + fuel) n (retryMessage w t toWait e) trace =
      attackOneLoop w t toWait true fuel (n + j) (retryMessage w t toWait e)
        (trace ++ quietRetries t toWait j) := by
  induction j generalizing n trace with
  | zero => simp [quietRetries]
  | succ j ih =>
    have h0 : w.httpGet n t = .error e := by simpa using h 0 (Nat.succ_pos j)
    have hrest : ∀ i, i < j → w.httpGet (n + 1 + i) t = .error e := fun i hi => by
      have := h (i + 1) (Nat.succ_lt_succ hi)
      rwa [show n + (i + 1) = n + 1 + i by omega] at this
    rw [show j + 1 + fuel = (j + fuel) + 1 by omega, attackOneLoop, h0]
    simp only [retryLog_events, ne_eq, not_true_eq_false, and_false, if_false]
    rw [ih (n + 1) _ hrest, quietRetries_succ]
    simp [Nat.add_assoc, Nat.add_comm 1 j]

/-- As long as the fetch fails the loop goes on, whatever the errors are:
each failure costs one fetch and one wait, and nothing is reported. -/
theorem attackOneLoop_errors (w : World) (t : String) (toWait : Int) (logRetry : Bool)
    (j fuel n : Nat) (msg : String) (trace : List Event)
    (h : ∀ i, i < j → ∃ e, w.httpGet (n + i) t = .error e) :
    ∃ msg1 evs,
      attackOneLoop w t toWait logRetry (j + fuel) n msg trace =
        attackOneLoop w t toWait logRetry fuel (n + j) msg1 (trace ++ evs) ∧
      reportLines evs = [] ∧ gets evs = List.replicate j t ∧
      sleeps evs = List.replicate j toWait := by
  induction j generalizing n msg trace with
  | zero => exact ⟨msg, [], by simp, rfl, rfl, rfl⟩
  | succ j ih =>
    obtain ⟨e, h0⟩ : ∃ e, w.httpGet n t = .error e := by simpa using h 0 (Nat.succ_pos j)
    have hrest : ∀ i, i < j → ∃ e, w.httpGet (n + 1 + i) t = .error e := fun i hi => by
      have := h (i + 1) (Nat.succ_lt_succ hi)
      rwa [show n + (i + 1) = n + 1 + i by omega] at this
    obtain ⟨msg1, evs, heq, hr, hg, hs⟩ :=
      ih (n + 1) (retryLog (retryMessage w t toWait e) msg toWait logRetry).1
        (trace ++ [Event.get t] ++ (retryLog (retryMessage w t toWait e) msg toWait logRetry).2)
        hrest
    refine ⟨msg1, [Event.get t] ++
      (retryLog (retryMessage w t toWait e) msg toWait logRetry).2 ++ evs, ?_, ?_, ?_, ?_⟩
    · rw [show j + 1 + fuel = (j + fuel) + 1 by omega, attackOneLoop, h0]
      simp only [] at heq ⊢
      rw [heq]
      simp [Nat.add_assoc, Nat.add_comm 1 j]
    · rw [reportLines_append, reportLines_append, hr, retryLog_events]
      split_ifs <;> simp [reportLines]
    · rw [gets_append, gets_append, hg, retryLog_events]
      split_ifs <;> simp [gets, List.replicate_succ]
    · rw [sleeps_append, sleeps_append, hs, retryLog_events]
      split_ifs <;> simp [sleeps, List.replicate_succ]

/-! ## The worker: one URL -/

/-- C1: when `http.Get(t)` fails with the same error `e` on the first `k ≥ 1`
attempts and then returns a response that is not a 404, one round of the
worker with retry logging enabled fetches `t` exactly `k + 1` times in
sequence, prints the retry notice once (after the first failure), waits
`toWait` once after each of the `k` failures and before the next fetch, prints
one report line, and adds exactly 1 to `nTry`.  The round ends as soon as
the loop is given more than `k` rounds of fuel; `nTry` is taken below the
largest `int`, where `nTry++` does not wrap. -/
theorem attackRound_retries_then_reports (w : World) (t e : String) (toWait : Int)
    (k fuel : Nat) (res : Response) (st : State)
    (hk : 1 ≤ k)
    (herr : ∀ i, i < k → w.httpGet i t = .error e)
    (hok : w.httpGet k t = .ok res)
    (h404 : res.StatusCode ≠ StatusNotFound)
    (hlo : minInt ≤ st.nTry) (hhi : st.nTry < maxInt)
    (hfuel : k < fuel) :
    ∃ evs,
      attackRound w toWait true fuel st t =
        some { nTry := st.nTry + 1, out := st.out ++ evs } ∧
      evs =
        [Event.get t, Event.retryNotice (retryMessage w t toWait e), Event.sleep toWait] ++
        (List.replicate (k - 1) [Event.get t, Event.sleep toWait]).flatten ++
        [Event.get t, Event.report (reportLine t res), Event.bodyClose] ∧
      gets evs = List.replicate (k + 1) t ∧
      retryNotices evs = [retryMessage w t toWait e] ∧
      sleeps evs = List.replicate k toWait ∧
      reportLines evs = [reportLine t res] := by
  obtain ⟨j, rfl⟩ : ∃ j, k = j + 1 := ⟨k - 1, by omega⟩
  obtain ⟨f, rfl⟩ : ∃ f, fuel = (j + (f + 1)) + 1 := ⟨fuel - j - 2, by omega⟩
  have h0 : w.httpGet 0 t = .error e := herr 0 (by omega)
  have hrest : ∀ i, i < j → w.httpGet (1 + i) t = .error e := fun i hi => by
    have := herr (i + 1) (by omega)
    rwa [show i + 1 = 1 + i by omega] at this
  have hok1 : w.httpGet (1 + j) t = .ok res := by
    rwa [show j + 1 = 1 + j by omega] at hok
  have hne : retryMessage w t toWait e ≠ "" := retryMessage_ne_empty w t toWait e
  refine ⟨_, ?_, rfl, ?_, ?_, ?_, ?_⟩
  · unfold attackRound attackOne
    rw [attackOneLoop, h0]
    simp only [retryLog_events, ne_eq, hne, not_false_eq_true, and_self, if_true]
    rw [show (0 : Nat) + 1 = 1 by rfl, attackOneLoop_same_error w t toWait e j (f + 1) 1 _ hrest,
      attackOneLoop, hok1]
    simp only [if_neg h404, wrapInt_succ st.nTry hlo hhi, quietRetries]
    simp
  · simp only [Nat.add_sub_cancel, gets_append]
    rw [show (List.replicate j [Event.get t, Event.sleep toWait]).flatten =
      quietRetries t toWait j from rfl, gets_quietRetries]
    simp only [gets, List.replicate_succ, List.cons_append, List.nil_append]
    rw [← List.replicate_succ', List.replicate_succ]
  · simp only [Nat.add_sub_cancel, retryNotices_append]
    rw [show (List.replicate j [Event.get t, Event.sleep toWait]).flatten =
      quietRetries t toWait j from rfl, retryNotices_quietRetries]
    simp [retryNotices]
  · simp only [Nat.add_sub_cancel, sleeps_append]
    rw [show (List.replicate j [Event.get t, Event.sleep toWait]).flatten =
      quietRetries t toWait j from rfl, sleeps_quietRetries]
    simp [sleeps, List.replicate_succ]
  · simp only [Nat.add_sub_cancel, reportLines_append]
    rw [show (List.replicate j [Event.get t, Event.sleep toWait]).flatten =
      quietRetries t toWait j from rfl, reportLines_quietRetries]
    simp [reportLines]

/-- C2: when the first `http.Get(t)` returns a response with status 404, one
round of the worker fetches `t` once, prints no report line and no retry
notice, does not wait, and adds exactly 1 to `nTry` (taken below the largest
`int`, where `nTry++` does not wrap). -/
theorem attackRound_not_found (w : World) (t : String) (toWait : Int) (logRetry : Bool)
    (fuel : Nat) (res : Response) (st : State)
    (hok : w.httpGet 0 t = .ok res)
    (h404 : res.StatusCode = StatusNotFound)
    (hlo : minInt ≤ st.nTry) (hhi : st.nTry < maxInt)
    (hfuel : 0 < fuel) :
    ∃ evs,
      attackRound w toWait logRetry fuel st t =
        some { nTry := st.nTry + 1, out := st.out ++ evs } ∧
      gets evs = [t] ∧ reportLines evs = [] ∧ retryNotices evs = [] ∧ sleeps evs = [] := by
  obtain ⟨f, rfl⟩ : ∃ f, fuel = f + 1 := ⟨fuel - 1, by omega⟩
  refine ⟨[Event.get t, Event.bodyClose], ?_, rfl, rfl, rfl, rfl⟩
  unfold attackRound attackOne
  rw [attackOneLoop, hok]
  simp only [if_pos h404, wrapInt_succ st.nTry hlo hhi, List.nil_append]

/-- C3, as amended: when `http.Get(t)` returns, after any number of failed
attempts, a response that is not a 404 and whose Location header is absent
or resolves to a URL, `attackOne` prints exactly one report line: the status
line in brackets, `t`, then `" -> "` and the final request URL when its text
differs from `t`, then `" (Location: "`, the resolved URL and `")"` when the
Location header resolves, and nothing when there is no such header.  The text
of a resolved URL is never empty, since it is resolved against the absolute
URL of the request and so has a scheme.  What is printed when the Location
header does not resolve is not part of this statement. -/
theorem attackOne_report_line (w : World) (t : String) (toWait : Int) (logRetry : Bool)
    (k fuel : Nat) (res : Response)
    (herr : ∀ i, i < k → ∃ e, w.httpGet i t = .error e)
    (hok : w.httpGet k t = .ok res)
    (h404 : res.StatusCode ≠ StatusNotFound)
    (hloc : ∀ e, res.Location ≠ .error e)
    (hurl : res.Location ≠ .url "")
    (hfuel : k < fuel) :
    ∃ evs,
      attackOne w t toWait logRetry fuel = some evs ∧
      reportLines evs =
        ["[" ++ res.Status ++ "] " ++ t ++
          (if res.RequestURL = t then "" else " -> " ++ res.RequestURL) ++
          (match res.Location with
            | .url u => " (Location: " ++ u ++ ")"
            | _ => "")] := by
  obtain ⟨f, rfl⟩ : ∃ f, fuel = k + (f + 1) := ⟨fuel - k - 1, by omega⟩
  obtain ⟨msg1, evs, heq, hr, -, -⟩ :=
    attackOneLoop_errors w t toWait logRetry k (f + 1) 0 "" []
      (fun i hi => by simpa using herr i hi)
  refine ⟨([] ++ evs) ++ [Event.get t, Event.report (reportLine t res), Event.bodyClose],
    ?_, ?_⟩
  · unfold attackOne
    rw [heq, attackOneLoop, Nat.zero_add, hok]
    simp only [if_neg h404]
  · have hann : locationPart res.Location =
        (match res.Location with
          | .url u => " (Location: " ++ u ++ ")"
          | _ => "") := by
      cases hl : res.Location with
      | noLocation => simp [locationPart]
      | url u =>
        have hu : u ≠ "" := fun h => hurl (by rw [hl, h])
        simp [locationPart, hu, LocationResult.sprintURL]
      | error e => exact absurd hl (hloc e)
    rw [reportLines_append, reportLines_append, hr]
    simp only [reportLines, List.nil_append, reportLine, redirectPart, hann]

/-- C5: `retryLog` prints `m` exactly when logging is on and `m` differs from
the memo; the memo becomes `m` exactly then and is otherwise unchanged; in
every case it waits `toWait` once, as the last thing it does.  So with
logging off nothing is printed and the wait is still made, and with logging
on a message equal to the memo is not printed while a different one is. -/
theorem retryLog_spec (m s : String) (toWait : Int) (logRetry : Bool) :
    (Event.retryNotice m ∈ (retryLog m s toWait logRetry).2 ↔ (logRetry = true ∧ m ≠ s)) ∧
    retryNotices (retryLog m s toWait logRetry).2 =
      (if logRetry = true ∧ m ≠ s then [m] else []) ∧
    (retryLog m s toWait logRetry).1 = (if logRetry = true ∧ m ≠ s then m else s) ∧
    sleeps (retryLog m s toWait logRetry).2 = [toWait] ∧
    (retryLog m s toWait logRetry).2.getLast? = some (Event.sleep toWait) ∧
    gets (retryLog m s toWait logRetry).2 = [] ∧
    reportLines (retryLog m s toWait logRetry).2 = [] ∧
    (logRetry = false →
      retryNotices (retryLog m s toWait logRetry).2 = [] ∧
      sleeps (retryLog m s toWait logRetry).2 = [toWait]) ∧
    (logRetry = true → m = s → retryNotices (retryLog m s toWait logRetry).2 = []) ∧
    (logRetry = true → m ≠ s → retryNotices (retryLog m s toWait logRetry).2 = [m]) := by
  rw [retryLog_events]
  by_cases h : logRetry = true ∧ m ≠ s
  · simp only [if_pos h]
    obtain ⟨h1, h2⟩ := h
    simp [retryNotices, sleeps, gets, reportLines, h1, h2]
  · simp only [if_neg h]
    have h3 : logRetry = true → m = s := fun hl => by
      by_contra hne
      exact h ⟨hl, hne⟩
    cases logRetry
    · simp [retryNotices, sleeps, gets, reportLines]
    · have hms := h3 rfl
      simp [retryNotices, sleeps, gets, reportLines, hms]

/-- In the failing case the annotation never carries the error text. -/
theorem locationPart_error (e : String) :
    locationPart (.error e) = " (Location: <nil>)" := by
  have hne : "Error: " ++ e ≠ "" := by
    intro h
    have hl := congrArg String.length h
    rw [String.length_append] at hl
    have h7 : ("Error: ").length = 7 := by decide
    have h0 : ("").length = 0 := by decide
    rw [h7, h0] at hl
    omega
  simp only [locationPart, LocationResult.sprintURL, ne_eq, hne, not_false_eq_true,
    if_true]
  decide

/-- A line for a redirect status never has a Location annotation: a response
with such a status comes back from `http.Get` only without Location header. -/
theorem reportLine_redirect_status (t : String) (res : Response)
    (hget : getCanReturn res = true) (hr : redirectStatus res.StatusCode = true) :
    reportLine t res = "[" ++ res.Status ++ "] " ++ t ++ redirectPart t res := by
  have hloc : res.Location = LocationResult.noLocation := by
    simpa [getCanReturn, hr] using hget
  simp [reportLine, hloc, locationPart]

/-- C4 (evaluation at the failing input): a `201 Created` response whose
Location header `%zz` does not parse gets the annotation ` (Location: <nil>)`;
the text of the parse error, which `attackOne` first stores in `l`, is
overwritten and does not reach the report line. -/
theorem attackOne_location_error_lost :
    attackOne worldBadLocation "http://x/a" tenSeconds true 1 =
      some [Event.get "http://x/a",
            Event.report "[201 Created] http://x/a (Location: <nil>)",
            Event.bodyClose] := by
  decide

/-! ## The suffix list -/

/-- C6: `parseSuffixList l` is strictly increasing in the lexicographic order
of strings, hence sorted and without repetition, and its elements are exactly
the pieces of `l` between commas: the comma-free strings whose comma-join is
`l`, kept as they are, the empty one included. -/
theorem parseSuffixList_sorted_pieces (l : String) :
    List.Sorted (fun a b : String => a < b) (parseSuffixList l) ∧
    (parseSuffixList l).Nodup ∧
    (∀ s, s ∈ parseSuffixList l ↔ s ∈ stringsSplit l ',') ∧
    stringsJoin (stringsSplit l ',') "," = l ∧
    (∀ p, p ∈ stringsSplit l ',' → ',' ∉ p.data) ∧
    (∀ ps : List String, ps ≠ [] → (∀ p, p ∈ ps → ',' ∉ p.data) →
      stringsJoin ps "," = l → stringsSplit l ',' = ps) :=
  ⟨parseSuffixList_sorted_lt l, parseSuffixList_nodup l, parseSuffixList_mem l,
    stringsJoin_stringsSplit ',' l, stringsSplit_sepfree ',' l,
    fun ps hne hfree hjoin => by
      rw [← hjoin]
      exact stringsSplit_stringsJoin ',' ps hne hfree⟩

/-- C9: `parseSuffixList` depends only on the set of comma-separated pieces
of its input, and parsing the comma-join of a parsed list gives that list
again; `"a,a,b"` and `"b,a"` both parse to `["a", "b"]`. -/
theorem parseSuffixList_set_idempotent :
    (∀ l1 l2 : String,
      (∀ s, s ∈ stringsSplit l1 ',' ↔ s ∈ stringsSplit l2 ',') →
      parseSuffixList l1 = parseSuffixList l2) ∧
    (∀ l : String,
      parseSuffixList (stringsJoin (parseSuffixList l) ",") = parseSuffixList l) ∧
    parseSuffixList "a,a,b" = ["a", "b"] ∧
    parseSuffixList "b,a" = ["a", "b"] :=
  ⟨parseSuffixList_congr, parseSuffixList_join, by decide, by decide⟩

/-- Witness for C9, the inputs `"a,a,b"` and `"b,a"`: the pieces form the same
set and the two parse to the same list. -/
theorem parseSuffixList_set_idempotent_witness :
    (∀ s, s ∈ stringsSplit "a,a,b" ',' ↔ s ∈ stringsSplit "b,a" ',') ∧
    parseSuffixList "a,a,b" = parseSuffixList "b,a" := by
  have h : ∀ s, s ∈ stringsSplit "a,a,b" ',' ↔ s ∈ stringsSplit "b,a" ',' := by
    intro s
    have e1 : stringsSplit "a,a,b" ',' = ["a", "a", "b"] := by decide
    have e2 : stringsSplit "b,a" ',' = ["b", "a"] := by decide
    rw [e1, e2]
    simp only [List.mem_cons, List.mem_singleton, List.not_mem_nil, or_false]
    tauto
  exact ⟨h, parseSuffixList_set_idempotent.1 "a,a,b" "b,a" h⟩

/-! ## Candidate generation -/

theorem sendSuffixes_eq (t : String) (suffixes ch : List String) :
    sendSuffixes t suffixes ch = ch ++ suffixes.map (fun s => t ++ s) := by
  unfold sendSuffixes
  induction suffixes generalizing ch with
  | nil => simp
  | cons s ss ih => rw [List.foldl_cons, ih]; simp

theorem sendTargets_eq (target : String) (lines suffixes ch : List String) :
    sendTargets target lines suffixes ch =
      ch ++ lines.flatMap (fun line => suffixes.map (fun s => target ++ line ++ s)) := by
  unfold sendTargets
  induction lines generalizing ch with
  | nil => simp
  | cons line lines ih =>
    rw [List.foldl_cons, ih]
    simp [sendSuffixes_eq]

theorem length_candidates (target : String) (lines suffixes : List String) :
    (lines.flatMap (fun line => suffixes.map (fun s => target ++ line ++ s))).length =
      lines.length * suffixes.length := by
  induction lines with
  | nil => simp
  | cons line lines ih =>
    rw [List.flatMap_cons, List.length_append, ih, List.length_map, List.length_cons]
    ring

/-- C7: the values `main` sends on the channel are, for each line of the
wordlist in order and each suffix in order, the target followed by the line
followed by the suffix, unchanged; there are as many as lines times
suffixes. -/
theorem sendTargets_candidates (b : String) (ws ss : List String) :
    sendTargets b ws ss [] = ws.flatMap (fun w => ss.map (fun s => b ++ w ++ s)) ∧
    (sendTargets b ws ss []).length = ws.length * ss.length := by
  have h := sendTargets_eq b ws ss []
  rw [List.nil_append] at h
  exact ⟨h, by rw [h, length_candidates]⟩

/-- C10: the empty suffix option parses to the one-element list `[""]`, and
with it every wordlist line gives exactly one candidate URL, the target
followed by the line with nothing appended. -/
theorem parseSuffixList_empty :
    parseSuffixList "" = [""] ∧
    ∀ (b : String) (ws : List String),
      sendTargets b ws (parseSuffixList "") [] = ws.map (fun w => b ++ w) := by
  have h : parseSuffixList "" = [""] := by decide
  refine ⟨h, fun b ws => ?_⟩
  rw [h, sendTargets_eq, List.nil_append]
  induction ws with
  | nil => rfl
  | cons w ws ih =>
    rw [List.flatMap_cons, ih]
    simp

/-! ## Target normalisation -/

theorem rdropWhile_slash (core : List Char) (n : Nat) (h : core.getLast? ≠ some '/') :
    (core ++ List.replicate n '/').rdropWhile (fun x => x == '/') = core := by
  induction n with
  | zero =>
    rw [List.replicate_zero, List.append_nil, List.rdropWhile_eq_self_iff]
    intro hl hp
    apply h
    rw [List.getLast?_eq_getLast _ hl]
    simpa using hp
  | succ n ih =>
    rw [List.replicate_succ', ← List.append_assoc, List.rdropWhile_concat_pos _ _ _ (by simp)]
    exact ih

theorem exists_core (l : List Char) :
    ∃ core n, l = core ++ List.replicate n '/' ∧ core.getLast? ≠ some '/' := by
  induction l using List.reverseRecOn with
  | nil => exact ⟨[], 0, rfl, by simp⟩
  | append_singleton l x ih =>
    by_cases hx : x = '/'
    · obtain ⟨core, n, hl, hc⟩ := ih
      refine ⟨core, n + 1, ?_, hc⟩
      rw [hl, hx, List.replicate_succ', List.append_assoc]
    · exact ⟨l ++ [x], 0, by simp, by simpa using hx⟩

theorem normalizeTarget_data (core : List Char) (n : Nat) (t : String)
    (ht : t.data = core ++ List.replicate n '/') (h : core.getLast? ≠ some '/') :
    (normalizeTarget t).data = core ++ ['/'] := by
  unfold normalizeTarget stringsTrimRight
  rw [String.data_append, ht, rdropWhile_slash core n h]

/-- C8: the normalised target is the target with all its trailing `/`
removed, followed by one `/`; it ends in exactly one `/`, and normalising
it again changes nothing.  `"http://x/"`, `"http://x"` and `"http://x///"` all
normalise to `"http://x/"`. -/
theorem normalizeTarget_spec (t : String) :
    (∃ core n, t.data = core ++ List.replicate n '/' ∧ core.getLast? ≠ some '/' ∧
      (normalizeTarget t).data = core ++ ['/']) ∧
    (normalizeTarget t).data.getLast? = some '/' ∧
    (normalizeTarget t).data.dropLast.getLast? ≠ some '/' ∧
    normalizeTarget (normalizeTarget t) = normalizeTarget t ∧
    normalizeTarget "http://x/" = "http://x/" ∧
    normalizeTarget "http://x" = "http://x/" ∧
    normalizeTarget "http://x///" = "http://x/" := by
  obtain ⟨core, n, ht, hc⟩ := exists_core t.data
  have hd := normalizeTarget_data core n t ht hc
  refine ⟨⟨core, n, ht, hc, hd⟩, ?_, ?_, ?_, by decide, by decide, by decide⟩
  · rw [hd]; simp
  · rw [hd]; simpa using hc
  · apply String.ext
    rw [normalizeTarget_data core 1 (normalizeTarget t) (by rw [hd]; rfl) hc, hd]


/-! ## The theorems at concrete inputs -/

/-- Witness for C1, three timeouts followed by a `200 OK`: four fetches, one
retry notice, three waits, one report line, and the counter goes from 0 to 1. -/
theorem attackRound_retries_then_reports_witness :
    ∃ evs,
      attackRound worldThreeFailures tenSeconds true 4 { nTry := 0, out := [] } "http://x/a" =
        some { nTry := 0 + 1, out := [] ++ evs } ∧
      evs =
        [Event.get "http://x/a",
          Event.retryNotice
            (retryMessage worldThreeFailures "http://x/a" tenSeconds "timeout"),
          Event.sleep tenSeconds] ++
        (List.replicate (3 - 1) [Event.get "http://x/a", Event.sleep tenSeconds]).flatten ++
        [Event.get "http://x/a", Event.report (reportLine "http://x/a" responseOK),
          Event.bodyClose] ∧
      gets evs = List.replicate (3 + 1) "http://x/a" ∧
      retryNotices evs = [retryMessage worldThreeFailures "http://x/a" tenSeconds "timeout"] ∧
      sleeps evs = List.replicate 3 tenSeconds ∧
      reportLines evs = [reportLine "http://x/a" responseOK] :=
  attackRound_retries_then_reports worldThreeFailures "http://x/a" "timeout" tenSeconds 3 4
    responseOK { nTry := 0, out := [] } (by decide)
    (fun i hi => by simp [worldThreeFailures, hi])
    rfl (by decide) (by decide) (by decide) (by decide)

/-- Witness for C2, a `404 Not Found`: one fetch, nothing printed, no wait, and
the counter goes from 0 to 1. -/
theorem attackRound_not_found_witness :
    ∃ evs,
      attackRound worldNotFound tenSeconds true 1 { nTry := 0, out := [] } "http://x/a" =
        some { nTry := 0 + 1, out := [] ++ evs } ∧
      gets evs = ["http://x/a"] ∧ reportLines evs = [] ∧ retryNotices evs = [] ∧
      sleeps evs = [] :=
  attackRound_not_found worldNotFound "http://x/a" tenSeconds true 1 responseNotFound
    { nTry := 0, out := [] } rfl (by decide) (by decide) (by decide) (by decide)

/-- Witness for C3, a `201 Created` with `Location: http://x/secret` received
after one timeout and for another request URL than the candidate: the one line
carries the status, the redirect and the Location annotation. -/
theorem attackOne_report_line_witness :
    ∃ evs,
      attackOne worldCreated "http://x/a" tenSeconds true 2 = some evs ∧
      reportLines evs =
        ["[201 Created] http://x/a -> http://x/b (Location: http://x/secret)"] := by
  obtain ⟨evs, h1, h2⟩ :=
    attackOne_report_line worldCreated "http://x/a" tenSeconds true 1 2 responseCreated
      (fun i hi => ⟨"timeout", by
        have h0 : i = 0 := by omega
        subst h0
        rfl⟩) rfl (by decide)
      (fun e => by simp [responseCreated]) (by decide) (by decide)
  exact ⟨evs, h1, h2.trans (by decide)⟩

/-- Counterexample for C3 taken over every non-404 response: a
`201 Created` response carries the header `Location: %zz`, which does not
resolve.  The line `attackOne` prints for it is neither the line without
Location annotation nor the line annotated with a resolved URL, for there is
none; it ends in ` (Location: <nil>)`. -/
theorem attackOne_report_line_counterexample :
    responseBadLocation.StatusCode ≠ StatusNotFound ∧
    worldBadLocation.httpGet 0 "http://x/a" = Except.ok responseBadLocation ∧
    ¬ ∃ evs L,
      attackOne worldBadLocation "http://x/a" tenSeconds true 1 = some evs ∧
      reportLines evs =
        ["[" ++ responseBadLocation.Status ++ "] " ++ "http://x/a" ++
          (if responseBadLocation.RequestURL = "http://x/a" then ""
            else " -> " ++ responseBadLocation.RequestURL) ++ L] ∧
      (L = "" ∨
        ∃ u, responseBadLocation.Location = LocationResult.url u ∧
          L = " (Location: " ++ u ++ ")") := by
  refine ⟨by decide, rfl, ?_⟩
  rintro ⟨evs, L, h1, h2, h3⟩
  have he : attackOne worldBadLocation "http://x/a" tenSeconds true 1 =
      some [Event.get "http://x/a",
            Event.report "[201 Created] http://x/a (Location: <nil>)",
            Event.bodyClose] := by decide
  rw [he] at h1
  have hevs := Option.some.inj h1
  subst hevs
  rcases h3 with hL | ⟨u, hu, -⟩
  · subst hL
    revert h2
    decide
  · exact absurd hu (by simp [responseBadLocation])

end Httpbrute
